import Mathlib

/- Verification of the image-to-row reconciliation engine of the excel-image
repository (source files src/dataiku_webapp/backend.py and src/app.py), as a
shallow embedding in Lean.

Embedding conventions: Python strings are Lean `String`s manipulated
char-wise, raw bytes are `List Nat`, Python `None` is `Option`, Python dicts
are association lists (or lookup functions) with Python dict get/overwrite
semantics, and Python ints are `Nat`/`Int`/`ℚ` as appropriate (`ℚ` stands in
for Python floats; the row-height arithmetic of the source performs only
additions, multiplications and comparisons, which `ℚ` models exactly). -/

namespace ExcelImage

/-! ### Generic helpers modelling Python builtins -/

/-- Insertion step of an ascending insertion sort. -/
def insertSorted (x : Nat) : List Nat → List Nat
  | [] => [x]
  | y :: ys => if x ≤ y then x :: y :: ys else y :: insertSorted x ys

/-- Python `sorted(...)` on a list of ints. -/
def sortNat (l : List Nat) : List Nat := l.foldr insertSorted []

theorem mem_insertSorted {x a : Nat} {l : List Nat} :
    x ∈ insertSorted a l ↔ x = a ∨ x ∈ l := by
  induction l with
  | nil => simp [insertSorted]
  | cons y ys ih =>
    by_cases h : a ≤ y
    · simp [insertSorted, h]
    · simp only [insertSorted, if_neg h, List.mem_cons, ih]
      tauto

theorem mem_sortNat {x : Nat} {l : List Nat} : x ∈ sortNat l ↔ x ∈ l := by
  induction l with
  | nil => simp [sortNat]
  | cons y ys ih =>
    simp only [sortNat, List.foldr_cons] at *
    rw [mem_insertSorted, ih]
    simp

theorem sortNat_nil : sortNat [] = [] := rfl

/-! ### Data model

`Entry` embeds the image-entry dicts produced by the anchor extractors of
src/dataiku_webapp/backend.py (keys "row", "col", "ext", "data", "source");
`MediaItem` embeds the dicts produced by `_extract_media_images` (lines
1091-1113). -/

structure Entry where
  row : Option Nat
  col : Option Nat
  ext : String
  data : List Nat
  source : String
deriving DecidableEq, Repr

structure MediaItem where
  source : String
  ext : String
  data : List Nat
deriving DecidableEq, Repr

/-! ### Row reconciler (`_assign_entries_to_rows`, backend.py lines 1042-1068) -/

/-- One Python-dict insertion into a lookup function: later insertions for the
same key overwrite earlier ones. -/
def dictInsert (m : Nat → Option Entry) (k : Nat) (v : Entry) : Nat → Option Entry :=
  fun k' => if k' = k then some v else m k'

/-- `strict_map = {entry["row"]: entry for entry in entries if entry.get("row")
is not None}` (backend.py lines 1053-1054), as a lookup function. A Python
dict comprehension inserts left to right, so for duplicate rows the last
entry wins. Only `.get` is ever applied to this dict in the source, so a
lookup function is a faithful embedding. -/
def strictMapFrom (m : Nat → Option Entry) : List Entry → Nat → Option Entry
  | [] => m
  | e :: es =>
    match e.row with
    | some r => strictMapFrom (dictInsert m r e) es
    | none => strictMapFrom m es

def strict_map (entries : List Entry) : Nat → Option Entry :=
  strictMapFrom (fun _ => none) entries

/-- Diagnostics dict built by `_assign_entries_to_rows`. -/
structure AssignDiag where
  strategy : String
  exact_row_matches : Nat
  strict_col_matches : Nat
  missing_rows : List Nat
deriving DecidableEq, Repr

/-- The matched/missing loop of `_assign_entries_to_rows` (backend.py lines
1056-1063): for each target row in ascending order, look the row up in the
strict map, emitting a `(row, entry)` pair or recording the row as missing. -/
def assignLoop (m : Nat → Option Entry) :
    List Nat → List (Nat × Entry) × List Nat
  | [] => ([], [])
  | r :: rs =>
    let rest := assignLoop m rs
    match m r with
    | none => (rest.1, r :: rest.2)
    | some e => ((r, e) :: rest.1, rest.2)

/-- `_assign_entries_to_rows(target_rows, entries, image_col)` (backend.py
lines 1042-1068). The `image_col` parameter is accepted and ignored exactly
as in the source. -/
def assign_entries_to_rows (target_rows : List Nat) (entries : List Entry)
    (_image_col : Nat) : List (Nat × Entry) × AssignDiag :=
  if target_rows = [] ∨ entries = [] then
    ([], ⟨"strict_coordinate", 0, 0, sortNat target_rows⟩)
  else
    let m := strict_map entries
    let res := assignLoop m (sortNat target_rows)
    (res.1, ⟨"strict_coordinate", res.1.length, res.1.length, res.2⟩)

/-- The non-target anchor-row diagnostic of `extract_images` (backend.py lines
1273-1280): `sorted({entry["row"] for entry in source_entries if row is not
None and row not in target_set})`. -/
def non_target_anchor_rows (target_rows : List Nat) (entries : List Entry) : List Nat :=
  sortNat ((entries.filterMap (fun e =>
    match e.row with
    | some r => if r ∈ target_rows then none else some r
    | none => none)).dedup)

/-! ### Reconciler correctness lemmas -/

theorem strictMapFrom_isSome {m : Nat → Option Entry} {entries : List Entry} {r : Nat} :
    (strictMapFrom m entries r).isSome ↔
      (m r).isSome ∨ ∃ e ∈ entries, e.row = some r := by
  induction entries generalizing m with
  | nil => simp [strictMapFrom]
  | cons e es ih =>
    match he : e.row with
    | some r' =>
      simp only [strictMapFrom, he, ih, dictInsert]
      by_cases hr : r = r'
      · subst hr
        simp [he]
      · simp only [if_neg hr, List.mem_cons]
        constructor
        · rintro (h | ⟨x, hx, hxr⟩)
          · exact Or.inl h
          · exact Or.inr ⟨x, Or.inr hx, hxr⟩
        · rintro (h | ⟨x, hx | hx, hxr⟩)
          · exact Or.inl h
          · subst hx; rw [he] at hxr; cases hxr; exact absurd rfl hr
          · exact Or.inr ⟨x, hx, hxr⟩
    | none =>
      simp only [strictMapFrom, he, ih, List.mem_cons]
      constructor
      · rintro (h | ⟨x, hx, hxr⟩)
        · exact Or.inl h
        · exact Or.inr ⟨x, Or.inr hx, hxr⟩
      · rintro (h | ⟨x, hx | hx, hxr⟩)
        · exact Or.inl h
        · subst hx; rw [he] at hxr; cases hxr
        · exact Or.inr ⟨x, hx, hxr⟩

theorem strict_map_isSome {entries : List Entry} {r : Nat} :
    (strict_map entries r).isSome ↔ ∃ e ∈ entries, e.row = some r := by
  rw [strict_map, strictMapFrom_isSome]
  simp

/-- Every binding stored in the strict map comes from an entry of the list and
is keyed by that entry's own row. -/
theorem strictMapFrom_eq_some {m : Nat → Option Entry} {entries : List Entry}
    {r : Nat} {e : Entry} (h : strictMapFrom m entries r = some e) :
    m r = some e ∨ (e ∈ entries ∧ e.row = some r) := by
  induction entries generalizing m with
  | nil => exact Or.inl h
  | cons x xs ih =>
    match hx : x.row with
    | some r' =>
      rw [strictMapFrom, hx] at h
      rcases ih h with h' | ⟨he, her⟩
      · rw [dictInsert] at h'
        by_cases hr : r = r'
        · subst hr
          rw [if_pos rfl] at h'
          cases h'
          exact Or.inr ⟨List.mem_cons_self _ _, hx⟩
        · rw [if_neg hr] at h'
          exact Or.inl h'
      · exact Or.inr ⟨List.mem_cons_of_mem _ he, her⟩
    | none =>
      rw [strictMapFrom, hx] at h
      rcases ih h with h' | ⟨he, her⟩
      · exact Or.inl h'
      · exact Or.inr ⟨List.mem_cons_of_mem _ he, her⟩

theorem strict_map_eq_some {entries : List Entry} {r : Nat} {e : Entry}
    (h : strict_map entries r = some e) : e ∈ entries ∧ e.row = some r := by
  rcases strictMapFrom_eq_some h with h' | h'
  · cases h'
  · exact h'

theorem assignLoop_fst_mem {m : Nat → Option Entry} {rows : List Nat}
    {p : Nat × Entry} (h : p ∈ (assignLoop m rows).1) :
    p.1 ∈ rows ∧ m p.1 = some p.2 := by
  induction rows with
  | nil => simp [assignLoop] at h
  | cons r rs ih =>
    rw [assignLoop] at h
    match hm : m r with
    | none =>
      rw [hm] at h
      rcases ih h with ⟨h1, h2⟩
      exact ⟨List.mem_cons_of_mem _ h1, h2⟩
    | some e =>
      rw [hm] at h
      rcases List.mem_cons.mp h with h' | h'
      · subst h'
        exact ⟨List.mem_cons_self _ _, hm⟩
      · rcases ih h' with ⟨h1, h2⟩
        exact ⟨List.mem_cons_of_mem _ h1, h2⟩

theorem assignLoop_mem_fst {m : Nat → Option Entry} {rows : List Nat} {r : Nat}
    (hr : r ∈ rows) (hm : (m r).isSome) :
    r ∈ (assignLoop m rows).1.map Prod.fst := by
  induction rows with
  | nil => simp at hr
  | cons x xs ih =>
    rw [assignLoop]
    rcases List.mem_cons.mp hr with h | h
    · subst h
      match he : m r with
      | none => rw [he] at hm; simp at hm
      | some e =>
        show r ∈ List.map Prod.fst ((r, e) :: (assignLoop m xs).1)
        simp
    · match he : m x with
      | none =>
        show r ∈ List.map Prod.fst (assignLoop m xs).1
        exact ih h
      | some e =>
        show r ∈ List.map Prod.fst ((x, e) :: (assignLoop m xs).1)
        simp only [List.map_cons, List.mem_cons]
        exact Or.inr (ih h)

theorem assignLoop_missing_nil {m : Nat → Option Entry} {rows : List Nat}
    (h : ∀ r ∈ rows, (m r).isSome) : (assignLoop m rows).2 = [] := by
  induction rows with
  | nil => rfl
  | cons r rs ih =>
    rw [assignLoop]
    match he : m r with
    | none =>
      have := h r (List.mem_cons_self _ _)
      rw [he] at this
      simp at this
    | some e =>
      show (assignLoop m rs).2 = []
      exact ih (fun x hx => h x (List.mem_cons_of_mem _ hx))

theorem assignLoop_mem_missing {m : Nat → Option Entry} {rows : List Nat} {r : Nat}
    (h : r ∈ (assignLoop m rows).2) : r ∈ rows ∧ m r = none := by
  induction rows with
  | nil => simp [assignLoop] at h
  | cons x xs ih =>
    rw [assignLoop] at h
    match he : m x with
    | none =>
      rw [he] at h
      rcases List.mem_cons.mp h with h' | h'
      · subst h'; exact ⟨List.mem_cons_self _ _, he⟩
      · rcases ih h' with ⟨h1, h2⟩
        exact ⟨List.mem_cons_of_mem _ h1, h2⟩
    | some e =>
      rw [he] at h
      rcases ih h with ⟨h1, h2⟩
      exact ⟨List.mem_cons_of_mem _ h1, h2⟩

theorem assignLoop_pair_mem {m : Nat → Option Entry} {rows : List Nat} {r : Nat}
    {e : Entry} (hr : r ∈ rows) (hm : m r = some e) :
    (r, e) ∈ (assignLoop m rows).1 := by
  induction rows with
  | nil => simp at hr
  | cons x xs ih =>
    rw [assignLoop]
    rcases List.mem_cons.mp hr with h | h
    · subst h
      rw [hm]
      exact List.mem_cons_self _ _
    · match he : m x with
      | none =>
        show (r, e) ∈ (assignLoop m xs).1
        exact ih h
      | some e' =>
        show (r, e) ∈ (x, e') :: (assignLoop m xs).1
        exact List.mem_cons_of_mem _ (ih h)

/-- The strict map looks up the last entry (in list order) carrying the given
row: a Python dict comprehension overwrites on duplicate keys. -/
theorem strictMapFrom_eq_findRev (m : Nat → Option Entry) (entries : List Entry)
    (r : Nat) :
    strictMapFrom m entries r =
      match entries.reverse.find? (fun x => x.row == some r) with
      | some e => some e
      | none => m r := by
  induction entries generalizing m with
  | nil => simp [strictMapFrom]
  | cons x xs ih =>
    rw [List.reverse_cons, List.find?_append]
    cases hx : x.row with
    | none =>
      have hL : strictMapFrom m (x :: xs) = strictMapFrom m xs := by
        simp [strictMapFrom, hx]
      rw [hL, ih]
      cases hfind : xs.reverse.find? (fun y => y.row == some r) with
      | some e => simp [Option.or]
      | none =>
        have hpx : (fun y : Entry => y.row == some r) x = false := by
          simp [hx]
        simp [Option.or, List.find?_singleton, hpx]
    | some r' =>
      have hL : strictMapFrom m (x :: xs) = strictMapFrom (dictInsert m r' x) xs := by
        simp [strictMapFrom, hx]
      rw [hL, ih]
      cases hfind : xs.reverse.find? (fun y => y.row == some r) with
      | some e => simp [Option.or]
      | none =>
        by_cases hrr : r = r'
        · subst hrr
          have hpx : (fun y : Entry => y.row == some r) x = true := by
            simp [hx]
          simp [Option.or, List.find?_singleton, hpx, dictInsert]
        · have hpx : (fun y : Entry => y.row == some r) x = false := by
            simp [hx]
            exact fun h => absurd h.symm hrr
          simp [Option.or, List.find?_singleton, hpx, dictInsert,
            fun h => hrr h]

theorem strict_map_eq_findRev (entries : List Entry) (r : Nat) :
    strict_map entries r = entries.reverse.find? (fun x => x.row == some r) := by
  rw [strict_map, strictMapFrom_eq_findRev]
  cases h : entries.reverse.find? (fun x => x.row == some r) <;> simp

/-! ### Claim theorems for the reconciler -/

/-- C1: for every list of target rows and every entry list in which each
target row has exactly one row-bearing entry anchored at it, the reconciler
`_assign_entries_to_rows` returns a matched list whose set of rows equals the
target rows exactly, and an empty `missing_rows` list. -/
theorem assign_exact_cover (target_rows : List Nat) (entries : List Entry)
    (image_col : Nat)
    (h : ∀ r ∈ target_rows,
      entries.countP (fun e => decide (e.row = some r)) = 1) :
    (∀ r, r ∈ (assign_entries_to_rows target_rows entries image_col).1.map Prod.fst
        ↔ r ∈ target_rows) ∧
    (assign_entries_to_rows target_rows entries image_col).2.missing_rows = [] := by
  have hsome : ∀ r ∈ target_rows, (strict_map entries r).isSome := by
    intro r hr
    rw [strict_map_isSome]
    have h1 := h r hr
    have hpos : 0 < entries.countP (fun e => decide (e.row = some r)) := by omega
    rcases List.countP_pos_iff.mp hpos with ⟨e, he, hpe⟩
    exact ⟨e, he, of_decide_eq_true hpe⟩
  by_cases hg : target_rows = [] ∨ entries = []
  · rcases hg with hg | hg
    · subst hg
      simp [assign_entries_to_rows, sortNat_nil]
    · subst hg
      cases target_rows with
      | nil => simp [assign_entries_to_rows, sortNat_nil]
      | cons r rs =>
        have := h r (List.mem_cons_self _ _)
        simp [List.countP, List.countP.go] at this
  · rw [assign_entries_to_rows, if_neg hg]
    refine ⟨fun r => ⟨fun hr => ?_, fun hr => ?_⟩, ?_⟩
    · rcases List.mem_map.mp hr with ⟨p, hp, hpr⟩
      have := (assignLoop_fst_mem hp).1
      rw [hpr] at this
      exact mem_sortNat.mp this
    · exact assignLoop_mem_fst (mem_sortNat.mpr hr) (hsome r hr)
    · exact assignLoop_missing_nil (fun r hr => hsome r (mem_sortNat.mp hr))

/-- Witness for C1 at a concrete input: target rows 3 and 5, one entry at
each of those rows. -/
theorem assign_exact_cover_witness :
    3 ∈ (assign_entries_to_rows [3, 5]
        [⟨some 3, some 1, "png", [0], "drawing:1"⟩,
         ⟨some 5, some 1, "png", [1], "drawing:2"⟩] 1).1.map Prod.fst ∧
    (assign_entries_to_rows [3, 5]
        [⟨some 3, some 1, "png", [0], "drawing:1"⟩,
         ⟨some 5, some 1, "png", [1], "drawing:2"⟩] 1).2.missing_rows = [] :=
  ⟨((assign_exact_cover [3, 5]
        [⟨some 3, some 1, "png", [0], "drawing:1"⟩,
         ⟨some 5, some 1, "png", [1], "drawing:2"⟩] 1 (by decide)).1 3).mpr
      (by decide),
   (assign_exact_cover [3, 5]
        [⟨some 3, some 1, "png", [0], "drawing:1"⟩,
         ⟨some 5, some 1, "png", [1], "drawing:2"⟩] 1 (by decide)).2⟩

/-- C2: an anchor whose row is not a target row never appears in the matched
output of `_assign_entries_to_rows` (it is never reassigned to another row),
and its row is recorded in the non-target anchor-row diagnostic computed by
`extract_images`. -/
theorem non_target_anchor_diagnosed (target_rows : List Nat) (entries : List Entry)
    (image_col : Nat) (e : Entry) (r : Nat) (he : e ∈ entries)
    (hr : e.row = some r) (hnt : r ∉ target_rows) :
    (∀ p ∈ (assign_entries_to_rows target_rows entries image_col).1, p.2 ≠ e) ∧
      r ∈ non_target_anchor_rows target_rows entries := by
  constructor
  · intro p hp hpe
    by_cases hg : target_rows = [] ∨ entries = []
    · rw [assign_entries_to_rows, if_pos hg] at hp
      simp at hp
    · rw [assign_entries_to_rows, if_neg hg] at hp
      have h1 := (assignLoop_fst_mem hp).1
      have h2 := (assignLoop_fst_mem hp).2
      have h3 := (strict_map_eq_some h2).2
      rw [hpe, hr] at h3
      cases h3
      exact hnt (mem_sortNat.mp h1)
  · rw [non_target_anchor_rows, mem_sortNat, List.mem_dedup, List.mem_filterMap]
    refine ⟨e, he, ?_⟩
    rw [hr]
    simp [hnt]

/-- Witness for C2 at a concrete input: one anchor at row 7, target rows [3]. -/
theorem non_target_anchor_diagnosed_witness :
    7 ∈ non_target_anchor_rows [3] [⟨some 7, some 1, "png", [0], "drawing:1"⟩] :=
  (non_target_anchor_diagnosed [3] [⟨some 7, some 1, "png", [0], "drawing:1"⟩] 1
    ⟨some 7, some 1, "png", [0], "drawing:1"⟩ 7 (by decide) rfl (by decide)).2

/-- C3 counterexample: two row-bearing entries share row 5; the reconciler
matches row 5 to the SECOND entry in list order, not the first, because the
dict comprehension building `strict_map` overwrites on duplicate keys. -/
theorem duplicate_row_first_wins_cex :
    (assign_entries_to_rows [5]
        [⟨some 5, some 1, "png", [0], "drawing:1"⟩,
         ⟨some 5, some 1, "png", [1], "drawing:2"⟩] 1).1 =
      [(5, ⟨some 5, some 1, "png", [1], "drawing:2"⟩)] ∧
    (assign_entries_to_rows [5]
        [⟨some 5, some 1, "png", [0], "drawing:1"⟩,
         ⟨some 5, some 1, "png", [1], "drawing:2"⟩] 1).1 ≠
      [(5, ⟨some 5, some 1, "png", [0], "drawing:1"⟩)] := by
  constructor
  · rfl
  · decide

/-- C3 amended: for duplicate row keys the LAST occurrence in entry order wins
(later duplicates silently replace earlier ones, and no anomaly is recorded),
so the anchor matched to a duplicated target row is the last one listed. -/
theorem duplicate_row_last_wins (target_rows : List Nat) (entries : List Entry)
    (image_col : Nat) (r : Nat) (e : Entry) (hr : r ∈ target_rows)
    (hlast : entries.reverse.find? (fun x => x.row == some r) = some e) :
    (r, e) ∈ (assign_entries_to_rows target_rows entries image_col).1 := by
  have hm : strict_map entries r = some e := by
    rw [strict_map_eq_findRev, hlast]
  have hent : entries ≠ [] := by
    intro h
    subst h
    simp [List.find?] at hlast
  have hg : ¬(target_rows = [] ∨ entries = []) := by
    rintro (h | h)
    · subst h; simp at hr
    · exact hent h
  rw [assign_entries_to_rows, if_neg hg]
  exact assignLoop_pair_mem (mem_sortNat.mpr hr) hm

/-- Witness for C3's amended theorem at the concrete duplicate-row input. -/
theorem duplicate_row_last_wins_witness :
    (5, ⟨some 5, some 1, "png", [1], "drawing:2"⟩) ∈
      (assign_entries_to_rows [5]
        [⟨some 5, some 1, "png", [0], "drawing:1"⟩,
         ⟨some 5, some 1, "png", [1], "drawing:2"⟩] 1).1 :=
  duplicate_row_last_wins [5]
    [⟨some 5, some 1, "png", [0], "drawing:1"⟩,
     ⟨some 5, some 1, "png", [1], "drawing:2"⟩] 1 5
    ⟨some 5, some 1, "png", [1], "drawing:2"⟩ (by decide) (by decide)

/-! ### Strategy selection and reconciliation outcome of `extract_images`
(backend.py lines 1222-1345) -/

/-- The strategy-priority chain of `extract_images` (backend.py lines
1224-1238): the first non-empty entry list is chosen together with its
extraction-mode name; when all are empty the mode keeps its initial value
"none". -/
def chooseSource (dispimg related cellanchor drawing opxl : List Entry) :
    List Entry × String :=
  if dispimg ≠ [] then (dispimg, "dispimg_cellimages")
  else if related ≠ [] then (related, "sheet_related_anchor")
  else if cellanchor ≠ [] then (cellanchor, "cellimages_anchor")
  else if drawing ≠ [] then (drawing, "drawing_anchor")
  else if opxl ≠ [] then (opxl, "openpyxl_anchor")
  else ([], "none")

/-- The reconciliation-relevant outcome of one `extract_images` request:
the matched `(row, entry)` pairs, the missing target rows, the final
extraction mode and the mapping-strategy tag. -/
structure Outcome where
  mapped : List (Nat × Entry)
  missing_rows : List Nat
  extraction_mode : String
  mapping_strategy : String
deriving DecidableEq, Repr

/-- The branch structure of `extract_images` after the extractors ran
(backend.py lines 1267-1345): strict same-row mapping when a chosen strategy
and target rows both exist; total failure (every target row missing) when
target rows exist but no strategy produced entries; plain export with no row
mapping otherwise. No count-based fallback from the positionless media list
to target rows exists anywhere in this chain. -/
def extract_outcome (dispimg related cellanchor drawing opxl : List Entry)
    (target_rows : List Nat) (media : List MediaItem) : Outcome :=
  let chosen := chooseSource dispimg related cellanchor drawing opxl
  if chosen.1 ≠ [] ∧ target_rows ≠ [] then
    let res := assign_entries_to_rows target_rows chosen.1 1
    let mode := if res.2.missing_rows ≠ [] then "strict_row_locked_missing_rows"
      else chosen.2
    ⟨res.1, res.2.missing_rows, mode, res.2.strategy⟩
  else if target_rows ≠ [] then
    ⟨[], sortNat target_rows, "strict_row_locked_no_row_anchors",
      "strict_only_no_source_entries"⟩
  else if chosen.1 ≠ [] then
    ⟨[], [], chosen.2, "none"⟩
  else if media ≠ [] ∧ target_rows = [] then
    ⟨[], [], "xlsx_media_no_target_rows", "none"⟩
  else
    ⟨[], [], "none", "none"⟩

/-- C4 counterexample: no strategy yields any entry, exactly one media image
exists and exactly one target row exists (the exact-count situation in which
the claimed fallback would have to activate), yet the code maps nothing and
reports the target row as missing, in total-failure mode. -/
theorem media_fallback_cex :
    extract_outcome [] [] [] [] [] [2] [⟨"xl/media/image1.png", "png", [0]⟩] =
      ⟨[], [2], "strict_row_locked_no_row_anchors",
        "strict_only_no_source_entries"⟩ ∧
    [(⟨"xl/media/image1.png", "png", [0]⟩ : MediaItem)].length = [2].length := by
  constructor
  · rfl
  · rfl

/-- C4 amended: the count-based sequential-media fallback never activates.
Whenever no strategy yields any row-bearing anchor and target rows exist, the
request reports total failure for every target row (nothing mapped, every
target row missing), regardless of how many media images exist and in
particular also when their count exactly equals the target-row count. -/
theorem no_media_fallback (dispimg related cellanchor drawing opxl : List Entry)
    (target_rows : List Nat) (media : List MediaItem)
    (hnorow : ∀ e ∈ dispimg ++ related ++ cellanchor ++ drawing ++ opxl,
      e.row = none)
    (ht : target_rows ≠ []) :
    (extract_outcome dispimg related cellanchor drawing opxl target_rows
        media).mapped = [] ∧
    (extract_outcome dispimg related cellanchor drawing opxl target_rows
        media).missing_rows = sortNat target_rows := by
  have hchosen : ∀ e ∈ (chooseSource dispimg related cellanchor drawing opxl).1,
      e.row = none := by
    intro e he
    rw [chooseSource] at he
    split at he
    · exact hnorow e (by simp [he])
    · split at he
      · exact hnorow e (by simp [he])
      · split at he
        · exact hnorow e (by simp [he])
        · split at he
          · exact hnorow e (by simp [he])
          · split at he
            · exact hnorow e (by simp [he])
            · simp at he
  have hmap : ∀ r, strict_map (chooseSource dispimg related cellanchor
      drawing opxl).1 r = none := by
    intro r
    cases hm : strict_map (chooseSource dispimg related cellanchor drawing opxl).1 r with
    | none => rfl
    | some e =>
      have := strict_map_eq_some hm
      rw [hchosen e this.1] at this
      cases this.2
  rw [extract_outcome]
  by_cases hc : (chooseSource dispimg related cellanchor drawing opxl).1 ≠ [] ∧
      target_rows ≠ []
  · rw [if_pos hc]
    have hloop1 : ∀ rows, (assignLoop (strict_map (chooseSource dispimg related
        cellanchor drawing opxl).1) rows).1 = [] ∧
        (assignLoop (strict_map (chooseSource dispimg related cellanchor
          drawing opxl).1) rows).2 = rows := by
      intro rows
      induction rows with
      | nil => exact ⟨rfl, rfl⟩
      | cons x xs ih =>
        rw [assignLoop, hmap x]
        exact ⟨ih.1, by rw [ih.2]⟩
    have hg : ¬(target_rows = [] ∨ (chooseSource dispimg related cellanchor
        drawing opxl).1 = []) := by
      rintro (h | h)
      · exact hc.2 h
      · exact hc.1 h
    simp only [assign_entries_to_rows, if_neg hg]
    exact ⟨(hloop1 (sortNat target_rows)).1, (hloop1 (sortNat target_rows)).2⟩
  · rw [if_neg hc, if_pos ht]
    exact ⟨rfl, rfl⟩

/-- Witness for C4's amended theorem: empty strategies, one target row, one
media image. -/
theorem no_media_fallback_witness :
    (extract_outcome [] [] [] [] [] [2]
        [⟨"xl/media/image1.png", "png", [0]⟩]).mapped = [] ∧
    (extract_outcome [] [] [] [] [] [2]
        [⟨"xl/media/image1.png", "png", [0]⟩]).missing_rows = sortNat [2] :=
  no_media_fallback [] [] [] [] [] [2] [⟨"xl/media/image1.png", "png", [0]⟩]
    (by decide) (by decide)

/-- C9: the chosen extraction strategy and the resulting row mapping are
deterministic functions of the input: two runs of the modelled engine on
identical inputs produce identical outcomes (strategy name, matched pairs,
missing rows). The Lean embedding is a pure function of the extracted entry
lists, target rows and media list, mirroring that the source computes these
from the uploaded bytes alone with no ambient state. -/
theorem outcome_deterministic (dispimg related cellanchor drawing opxl : List Entry)
    (target_rows : List Nat) (media : List MediaItem)
    (dispimg' related' cellanchor' drawing' opxl' : List Entry)
    (target_rows' : List Nat) (media' : List MediaItem)
    (h1 : dispimg = dispimg') (h2 : related = related')
    (h3 : cellanchor = cellanchor') (h4 : drawing = drawing')
    (h5 : opxl = opxl') (h6 : target_rows = target_rows') (h7 : media = media') :
    extract_outcome dispimg related cellanchor drawing opxl target_rows media =
      extract_outcome dispimg' related' cellanchor' drawing' opxl'
        target_rows' media' ∧
    chooseSource dispimg related cellanchor drawing opxl =
      chooseSource dispimg' related' cellanchor' drawing' opxl' := by
  subst h1 h2 h3 h4 h5 h6 h7
  exact ⟨rfl, rfl⟩

/-- Witness for C9 at a concrete input. -/
theorem outcome_deterministic_witness :
    extract_outcome [] [] [] [] [⟨some 3, some 1, "png", [0], "openpyxl:1"⟩]
        [3] [] =
      extract_outcome [] [] [] [] [⟨some 3, some 1, "png", [0], "openpyxl:1"⟩]
        [3] [] :=
  (outcome_deterministic [] [] [] []
    [⟨some 3, some 1, "png", [0], "openpyxl:1"⟩] [3] []
    [] [] [] [] [⟨some 3, some 1, "png", [0], "openpyxl:1"⟩] [3] []
    rfl rfl rfl rfl rfl rfl rfl).1

/-! ### Package navigator: `_resolve_zip_path` (backend.py lines 324-331)
together with the `posixpath` primitives it calls. Paths are manipulated as
`List Char`; `String.mk`/`String.toList` convert at the boundary. -/

/-- Python `str.split(sep)` for a one-character separator (empty pieces are
kept, and splitting the empty string yields one empty piece). -/
def splitChar (sep : Char) : List Char → List (List Char)
  | [] => [[]]
  | c :: cs =>
    let r := splitChar sep cs
    if c = sep then [] :: r
    else
      match r with
      | h :: t => (c :: h) :: t
      | [] => [[c]]

/-- Python `"/".join(...)` on components. -/
def joinSlash : List (List Char) → List Char
  | [] => []
  | [p] => p
  | p :: ps => p ++ '/' :: joinSlash ps

/-- Boolean prefix test on char lists (Python `str.startswith`). -/
def startsWithL : List Char → List Char → Bool
  | _, [] => true
  | [], _ :: _ => false
  | c :: cs, p :: ps => c = p && startsWithL cs ps

/-- The component-filtering loop of Python's `posixpath.normpath`: empty and
"." components are dropped, ".." pops the previous component unless at an
unrooted start or after another surviving "..". -/
def normpathComps (initialSlashes : Nat) :
    List (List Char) → List (List Char) → List (List Char)
  | acc, [] => acc
  | acc, comp :: rest =>
    if comp = [] ∨ comp = ['.'] then normpathComps initialSlashes acc rest
    else if comp ≠ ['.', '.'] ∨ (initialSlashes = 0 ∧ acc = []) ∨
        acc.getLast? = some ['.', '.'] then
      normpathComps initialSlashes (acc ++ [comp]) rest
    else if acc ≠ [] then normpathComps initialSlashes acc.dropLast rest
    else normpathComps initialSlashes acc rest

/-- Python `posixpath.normpath`. -/
def normpath (path : List Char) : List Char :=
  if path = [] then ['.']
  else
    let initialSlashes : Nat :=
      if startsWithL path ['/'] then
        if startsWithL path ['/', '/'] ∧ ¬(startsWithL path ['/', '/', '/'] = true)
        then 2 else 1
      else 0
    let comps := splitChar '/' path
    let newComps := normpathComps initialSlashes [] comps
    let p := List.replicate initialSlashes '/' ++ joinSlash newComps
    if p = [] then ['.'] else p

/-- Python `posixpath.join` for exactly two arguments (the only arity the
source uses). -/
def posixJoin (a b : List Char) : List Char :=
  if startsWithL b ['/'] then b
  else if a = [] ∨ a.getLast? = some '/' then a ++ b
  else a ++ '/' :: b

/-- Python `posixpath.dirname`. -/
def posixDirname (p : List Char) : List Char :=
  match p.reverse.findIdx? (· = '/') with
  | none => []
  | some j =>
    let head := p.take (p.length - j)
    if head.all (· = '/') then head
    else (head.reverse.dropWhile (· = '/')).reverse

/-- `_resolve_zip_path(base_path, target)` (backend.py lines 324-331): falsy
targets resolve to None; backslashes are normalized to forward slashes; a
target starting with "/" is package-root-relative (all leading slashes
stripped, nothing else changed); any other target is joined to the directory
of the base part and normalized. -/
def resolve_zip_path (base_path : String) (target : Option String) : Option String :=
  match target with
  | none => none
  | some t =>
    if t = "" then none
    else
      let clean := t.toList.map (fun c => if c = '\\' then '/' else c)
      if startsWithL clean ['/'] then
        some (String.mk (clean.dropWhile (· = '/')))
      else
        some (String.mk (normpath (posixJoin (posixDirname base_path.toList) clean)))

/-- C5: `_resolve_zip_path` resolves leading-slash targets as package-root
relative (leading slashes removed, path otherwise unchanged) and other
targets relative to the directory of the base part, with backslashes
normalized and dot segments collapsed; in particular "../media/image1.png"
against "xl/worksheets/sheet1.xml" gives "xl/media/image1.png", and
"/xl/media/image1.png" gives "xl/media/image1.png". -/
theorem resolve_zip_path_spec :
    resolve_zip_path "xl/worksheets/sheet1.xml" (some "../media/image1.png")
      = some "xl/media/image1.png" ∧
    resolve_zip_path "xl/worksheets/sheet1.xml" (some "/xl/media/image1.png")
      = some "xl/media/image1.png" ∧
    resolve_zip_path "xl/worksheets/sheet1.xml" (some "..\\media\\image1.png")
      = some "xl/media/image1.png" ∧
    resolve_zip_path "xl/worksheets/sheet1.xml" (some "./x/../media/image1.png")
      = some "xl/worksheets/media/image1.png" ∧
    (∀ (base : String) (t : List Char), t ≠ [] → startsWithL t ['/'] = true →
      '\\' ∉ t →
      resolve_zip_path base (some (String.mk t)) =
        some (String.mk (t.dropWhile (· = '/')))) := by
  refine ⟨by decide, by decide, by decide, by decide, ?_⟩
  intro base t hne hslash hbs
  have hmk : String.mk t ≠ "" := by
    intro h
    rw [show ("" : String) = String.mk [] from rfl] at h
    exact hne (by injection h)
  have htl : (String.mk t).toList = t := rfl
  have hmap : t.map (fun c => if c = '\\' then '/' else c) = t := by
    conv_rhs => rw [← List.map_id t]
    refine List.map_congr_left ?_
    intro c hc
    have : c ≠ '\\' := fun h => hbs (h ▸ hc)
    simp [this]
  rw [resolve_zip_path, if_neg hmk, htl, hmap, if_pos hslash]

/-- Witness for C5's root-relative conjunct at a concrete input with a
repeated leading slash. -/
theorem resolve_zip_path_spec_witness :
    resolve_zip_path "xl/workbook.xml" (some (String.mk ('/' :: '/' :: 'a' :: [])))
      = some (String.mk (('/' :: '/' :: 'a' :: []).dropWhile (· = '/'))) :=
  resolve_zip_path_spec.2.2.2.2 "xl/workbook.xml" ('/' :: '/' :: 'a' :: [])
    (by decide) (by decide) (by decide)

/-! ### Layout detector (`_detect_layout`, backend.py lines 246-283) -/

/-- Boolean substring test on char lists (Python `in` on strings). -/
def hasInfix (pat : List Char) : List Char → Bool
  | [] => pat.isEmpty
  | c :: rest => startsWithL (c :: rest) pat || hasInfix pat rest

/-- Python `str.strip()` (no argument: strips whitespace at both ends). -/
def pyStrip (s : List Char) : List Char :=
  ((s.dropWhile Char.isWhitespace).reverse.dropWhile Char.isWhitespace).reverse

/-- Python `str.split()` with no argument: split on whitespace runs, dropping
empty pieces. -/
def splitWs : List Char → List Char → List (List Char)
  | cur, [] => if cur = [] then [] else [cur.reverse]
  | cur, c :: cs =>
    if c.isWhitespace then
      if cur = [] then splitWs [] cs else cur.reverse :: splitWs [] cs
    else splitWs (c :: cur) cs

/-- Python `" ".join(...)`. -/
def joinSpace : List (List Char) → List Char
  | [] => []
  | [t] => t
  | t :: ts => t ++ ' ' :: joinSpace ts

/-- `_normalize_label` (backend.py lines 155-158): non-strings become "";
strings are stripped, lowercased and have whitespace runs collapsed to single
spaces. Cell values are embedded as `Option String`, with `none` covering
both empty cells and non-string values (both normalize to ""). `Char.toLower`
matches Python lowercasing on the ASCII header labels involved. -/
def normalize_label (value : Option String) : String :=
  match value with
  | none => ""
  | some s => String.mk (joinSpace (splitWs [] ((pyStrip s.toList).map Char.toLower)))

/-- `_is_image_header_label` (backend.py lines 161-169). -/
def is_image_header_label (label : String) : Bool :=
  label ≠ "" &&
    (label == "image" || hasInfix "image".toList label.toList ||
      hasInfix "picture".toList label.toList || hasInfix "photo".toList label.toList)

/-- `_is_vendor_header_label` (backend.py lines 172-173). -/
def is_vendor_header_label (label : String) : Bool :=
  label ≠ "" && hasInfix "vendor".toList label.toList &&
    hasInfix "material".toList label.toList

/-- `_is_material_header_label` (backend.py lines 176-185). -/
def is_material_header_label (label : String) : Bool :=
  label ≠ "" && !hasInfix "vendor".toList label.toList &&
    (hasInfix "original material".toList label.toList ||
      startsWithL label.toList "material".toList ||
      hasInfix "material #".toList label.toList)

/-- A worksheet as the layout detector sees it: bounds plus a sparse cell
table ((row, col) is 1-based; absent cells read as `none`). -/
structure LWs where
  maxRow : Nat
  maxCol : Nat
  cells : List ((Nat × Nat) × Option String)
deriving DecidableEq, Repr

def LWs.cell (ws : LWs) (r c : Nat) : Option String :=
  match ws.cells.find? (fun p => decide (p.1 = (r, c))) with
  | some p => p.2
  | none => none

def FIXED_IMAGE_COL : Nat := 1
def FIXED_VENDOR_COL : Nat := 4
def FIXED_MATERIAL_COL : Nat := 6

/-- The header scan window of `_detect_layout`:
`range(1, min(ws.max_row or 1, 120) + 1)`. -/
def layoutScanRows (ws : LWs) : List Nat :=
  List.range' 1 (min (if ws.maxRow = 0 then 1 else ws.maxRow) 120)

structure Layout where
  image_col : Nat
  vendor_col : Nat
  material_col : Option Nat
  start_row : Nat
  image_header_row : Option Nat
  vendor_header_row : Option Nat
  material_header_row : Option Nat
deriving DecidableEq, Repr

/-- `_detect_layout(ws)` (backend.py lines 246-283): each header row is the
first row of the scan window whose fixed-column label satisfies the role
predicate; `start_row` is `vendor_header_row + 1` when a vendor header was
found at row 5 or earlier, and 1 otherwise (the source deliberately avoids
`max(...)` over the header rows, and its fallback is 1, not 2). -/
def detect_layout (ws : LWs) : Layout :=
  let rows := layoutScanRows ws
  let image_header_row := rows.find? (fun r =>
    is_image_header_label (normalize_label (ws.cell r FIXED_IMAGE_COL)))
  let vendor_header_row := rows.find? (fun r =>
    is_vendor_header_label (normalize_label (ws.cell r FIXED_VENDOR_COL)))
  let material_header_row := rows.find? (fun r =>
    is_material_header_label (normalize_label (ws.cell r FIXED_MATERIAL_COL)))
  let start_row :=
    match vendor_header_row with
    | some v => if v ≤ 5 then v + 1 else 1
    | none => 1
  ⟨FIXED_IMAGE_COL, FIXED_VENDOR_COL,
    (if FIXED_MATERIAL_COL ≤ ws.maxCol then some FIXED_MATERIAL_COL else none),
    start_row, image_header_row, vendor_header_row, material_header_row⟩

/-- C6 counterexample: on a worksheet with no header rows at all, the detector
returns `start_row = 1`, not the claimed default 2; and on a worksheet whose
vendor header is at row 1 and whose image header is at row 3, it returns
`start_row = 2`, not one plus the last detected header row (which would
be 4). -/
theorem detect_layout_start_row_cex :
    ((detect_layout ⟨1, 6, []⟩).image_header_row = none ∧
     (detect_layout ⟨1, 6, []⟩).vendor_header_row = none ∧
     (detect_layout ⟨1, 6, []⟩).material_header_row = none ∧
     (detect_layout ⟨1, 6, []⟩).start_row = 1) ∧
    ((detect_layout ⟨3, 6, [((1, 4), some "Vendor Material"),
        ((3, 1), some "Image")]⟩).vendor_header_row = some 1 ∧
     (detect_layout ⟨3, 6, [((1, 4), some "Vendor Material"),
        ((3, 1), some "Image")]⟩).image_header_row = some 3 ∧
     (detect_layout ⟨3, 6, [((1, 4), some "Vendor Material"),
        ((3, 1), some "Image")]⟩).start_row = 2) := by
  constructor
  · exact ⟨rfl, rfl, rfl, rfl⟩
  · exact ⟨rfl, rfl, rfl⟩

/-- C6 amended: `start_row` equals `vendor_header_row + 1` exactly when a
vendor header row was detected at row 5 or earlier, and 1 in every other case
(vendor header found below row 5, or no vendor header found — in particular
also when no header at all was found); the image and material header rows
never influence `start_row`. -/
theorem detect_layout_start_row_amended (ws : LWs) :
    ((detect_layout ws).start_row =
      match (detect_layout ws).vendor_header_row with
      | some v => if v ≤ 5 then v + 1 else 1
      | none => 1) ∧
    ((∀ r ∈ layoutScanRows ws,
        is_vendor_header_label (normalize_label (ws.cell r FIXED_VENDOR_COL))
          = false) →
      (detect_layout ws).start_row = 1) := by
  constructor
  · rfl
  · intro h
    have hfind : (layoutScanRows ws).find? (fun r =>
        is_vendor_header_label (normalize_label (ws.cell r FIXED_VENDOR_COL)))
          = none := by
      rw [List.find?_eq_none]
      intro x hx
      rw [h x hx]
      simp
    show (match (layoutScanRows ws).find? (fun r =>
        is_vendor_header_label (normalize_label (ws.cell r FIXED_VENDOR_COL))) with
      | some v => if v ≤ 5 then v + 1 else 1
      | none => 1) = 1
    rw [hfind]

/-- Witness for C6's amended theorem on the empty worksheet. -/
theorem detect_layout_start_row_amended_witness :
    (detect_layout ⟨1, 6, []⟩).start_row = 1 :=
  (detect_layout_start_row_amended ⟨1, 6, []⟩).2 (by decide)

/-! ### Absolute-anchor row inference (`_row_height_points` and
`_row_from_y_emu`, backend.py lines 587-624). Python floats are embedded as
`ℚ`; the arithmetic involved is additions, multiplications and comparisons
only. -/

def EMU_PER_POINT : ℚ := 12700

def DEFAULT_ROW_HEIGHT_POINTS : ℚ := 15

/-- A worksheet as the row-height walker sees it: the 1-based maximum row,
the sheet-format default row height (None when unset) and the explicit
per-row heights (a `row_dimensions` record may itself carry no height). -/
structure HWs where
  maxRow : Nat
  defaultRowHeight : Option ℚ
  rowHeights : List (Nat × Option ℚ)
deriving DecidableEq, Repr

/-- `_row_height_points(ws, row_idx)` (backend.py lines 587-604): the default
height is used when the worksheet is absent, when no dimension record exists
for the row, or when the recorded height is None or 0; a falsy (0)
sheet-format default itself falls back to 15.0. -/
def row_height_points (ws : Option HWs) (row : Nat) : ℚ :=
  match ws with
  | none => DEFAULT_ROW_HEIGHT_POINTS
  | some w =>
    let dflt :=
      match w.defaultRowHeight with
      | none => DEFAULT_ROW_HEIGHT_POINTS
      | some d => if d = 0 then DEFAULT_ROW_HEIGHT_POINTS else d
    match w.rowHeights.find? (fun p => decide (p.1 = row)) with
    | none => dflt
    | some p =>
      match p.2 with
      | none => dflt
      | some h => if h = 0 then dflt else h

/-- Cumulative height in EMU of rows 1..r (the running `cumulative` of
`_row_from_y_emu` after processing row r). -/
def cumHeightEmu (ws : HWs) : Nat → ℚ
  | 0 => 0
  | r + 1 => cumHeightEmu ws r + row_height_points (some ws) (r + 1) * EMU_PER_POINT

/-- The scan loop of `_row_from_y_emu` (backend.py lines 618-623), with the
remaining iteration count made explicit. -/
def rowFromYLoop (ws : HWs) (y : ℚ) : ℚ → Nat → Nat → Option Nat
  | _, _, 0 => none
  | cumulative, rowIdx, fuel + 1 =>
    let c := cumulative + row_height_points (some ws) rowIdx * EMU_PER_POINT
    if y < c then some rowIdx else rowFromYLoop ws y c (rowIdx + 1) fuel

/-- The loop bound `max_row = (ws.max_row or 1) + 500` of `_row_from_y_emu`. -/
def rowScanBound (ws : HWs) : Nat := (if ws.maxRow = 0 then 1 else ws.maxRow) + 500

/-- `_row_from_y_emu(ws, y_emu)` (backend.py lines 607-624). The `int(y_emu)`
string parse is embedded as an `Option Int` input (`none` for a missing or
unparseable attribute); negative offsets are clamped to 0. -/
def row_from_y_emu (ws : Option HWs) (y : Option Int) : Option Nat :=
  match ws, y with
  | none, _ => none
  | some _, none => none
  | some w, some yv =>
    let yc : ℚ := ((max yv 0 : Int) : ℚ)
    rowFromYLoop w yc 0 1 (rowScanBound w)

theorem rowFromYLoop_eq_some (ws : HWs) (y : ℚ) (r : Nat) :
    ∀ (fuel i : Nat), i < r → r ≤ i + fuel →
    y < cumHeightEmu ws r →
    (∀ j, i < j → j < r → cumHeightEmu ws j ≤ y) →
    rowFromYLoop ws y (cumHeightEmu ws i) (i + 1) fuel = some r := by
  intro fuel
  induction fuel with
  | zero => intro i h1 h2; omega
  | succ n ih =>
    intro i h1 h2 hy hmin
    rw [rowFromYLoop]
    have hc : cumHeightEmu ws i + row_height_points (some ws) (i + 1) * EMU_PER_POINT
        = cumHeightEmu ws (i + 1) := rfl
    by_cases hcase : r = i + 1
    · subst hcase
      rw [if_pos (by rw [hc]; exact hy)]
    · have hlt : i + 1 < r := by omega
      have hle : cumHeightEmu ws (i + 1) ≤ y := hmin (i + 1) (by omega) hlt
      rw [if_neg (by rw [hc]; exact not_lt.mpr hle), hc]
      exact ih (i + 1) hlt (by omega) hy (fun j hj1 hj2 => hmin j (by omega) hj2)

theorem rowFromYLoop_eq_none (ws : HWs) (y : ℚ) :
    ∀ (fuel i : Nat),
    (∀ j, i < j → j ≤ i + fuel → cumHeightEmu ws j ≤ y) →
    rowFromYLoop ws y (cumHeightEmu ws i) (i + 1) fuel = none := by
  intro fuel
  induction fuel with
  | zero => intro i _; rfl
  | succ n ih =>
    intro i hle
    rw [rowFromYLoop]
    have hc : cumHeightEmu ws i + row_height_points (some ws) (i + 1) * EMU_PER_POINT
        = cumHeightEmu ws (i + 1) := rfl
    have h1 : cumHeightEmu ws (i + 1) ≤ y := hle (i + 1) (by omega) (by omega)
    rw [if_neg (by rw [hc]; exact not_lt.mpr h1), hc]
    exact ih (i + 1) (fun j hj1 hj2 => hle j (by omega) (by omega))

/-- On a worksheet with no explicit heights and no sheet default, every row
contributes the default 15 points, i.e. 190500 EMU. -/
theorem cumHeightEmu_default (r : Nat) :
    cumHeightEmu ⟨1, none, []⟩ r = 190500 * (r : ℚ) := by
  induction r with
  | zero => simp [cumHeightEmu]
  | succ n ih =>
    rw [cumHeightEmu, ih]
    show (190500 : ℚ) * n + 15 * 12700 = 190500 * (n + 1 : ℕ)
    push_cast
    ring

/-- C8 counterexample: on a default-height worksheet with `max_row = 1` the
scan is capped at 501 rows; for the offset 95440500 EMU (exactly the height
of 501 default rows) the smallest row whose cumulative height strictly
exceeds the offset is row 502, but `_row_from_y_emu` returns None instead of
that row. -/
theorem row_from_y_emu_cex :
    row_from_y_emu (some ⟨1, none, []⟩) (some 95440500) = none ∧
    (95440500 : ℚ) < cumHeightEmu ⟨1, none, []⟩ 502 := by
  constructor
  · show rowFromYLoop ⟨1, none, []⟩ ((max (95440500 : Int) 0 : Int) : ℚ) 0 1
        (rowScanBound ⟨1, none, []⟩) = none
    have hmax : ((max (95440500 : Int) 0 : Int) : ℚ) = 95440500 := by norm_num
    have hbound : rowScanBound ⟨1, none, []⟩ = 501 := rfl
    have h0 : (0 : ℚ) = cumHeightEmu ⟨1, none, []⟩ 0 := rfl
    rw [hmax, hbound, h0]
    refine rowFromYLoop_eq_none _ _ 501 0 ?_
    intro j hj1 hj2
    rw [cumHeightEmu_default]
    have : (j : ℚ) ≤ 501 := by exact_mod_cast hj2
    nlinarith
  · rw [cumHeightEmu_default]
    norm_num

/-- C8 amended: for every worksheet row-height table and non-negative EMU
offset y, `_row_from_y_emu` returns the smallest row r whose cumulative
height (per-row points times 12700, default height where no explicit height
exists) strictly exceeds y, provided that row lies within the scan bound
`(max_row or 1) + 500`; offsets at or beyond the scanned total yield None. -/
theorem row_from_y_emu_smallest (ws : HWs) (y : Int) (r : Nat) (hy : 0 ≤ y)
    (hr : 0 < r) (hrb : r ≤ rowScanBound ws)
    (hlt : (y : ℚ) < cumHeightEmu ws r)
    (hmin : ∀ j, 0 < j → j < r → cumHeightEmu ws j ≤ (y : ℚ)) :
    row_from_y_emu (some ws) (some y) = some r := by
  show rowFromYLoop ws ((max y 0 : Int) : ℚ) 0 1 (rowScanBound ws) = some r
  have hmax : ((max y 0 : Int) : ℚ) = (y : ℚ) := by
    rw [max_eq_left hy]
  have h0 : (0 : ℚ) = cumHeightEmu ws 0 := rfl
  rw [hmax, h0]
  exact rowFromYLoop_eq_some ws _ r (rowScanBound ws) 0 hr (by omega) hlt
    (fun j hj1 hj2 => hmin j hj1 hj2)

/-- Witness for C8's amended theorem: default heights, offset 200000 EMU,
first row covers 190500 EMU, so the answer is row 2. -/
theorem row_from_y_emu_smallest_witness :
    row_from_y_emu (some ⟨1, none, []⟩) (some 200000) = some 2 :=
  row_from_y_emu_smallest ⟨1, none, []⟩ 200000 2 (by decide) (by decide)
    (by decide)
    (by rw [cumHeightEmu_default]; norm_num)
    (fun j hj1 hj2 => by
      have hj : j = 1 := by omega
      subst hj
      rw [cumHeightEmu_default]
      norm_num)

/-! ### Unique output filenames (`_next_unique_filename`, backend.py lines
103-115 and app.py lines 62-74; both copies are identical). -/

/-- Decimal rendering of a natural number, matching Python `str(int)` on the
non-negative counters used for filename suffixes. -/
def natStrCore (n : Nat) : List Char :=
  if n < 10 then [Nat.digitChar n]
  else natStrCore (n / 10) ++ [Nat.digitChar (n % 10)]
termination_by n
decreasing_by
  omega

def natStr (n : Nat) : String := String.mk (natStrCore n)

/-- Decimal value of a digit string, used only to prove `natStr` injective. -/
def natVal (l : List Char) : Nat := l.foldl (fun a c => a * 10 + (c.toNat - 48)) 0

theorem digitChar_toNat {n : Nat} (h : n < 10) : (Nat.digitChar n).toNat = 48 + n := by
  interval_cases n <;> decide

theorem natVal_append_digit (l : List Char) (c : Char) :
    natVal (l ++ [c]) = natVal l * 10 + (c.toNat - 48) := by
  rw [natVal, List.foldl_append]
  rfl

theorem natVal_natStrCore (n : Nat) : natVal (natStrCore n) = n := by
  induction n using Nat.strong_induction_on with
  | _ n ih =>
    by_cases h : n < 10
    · rw [natStrCore, if_pos h]
      show 0 * 10 + ((Nat.digitChar n).toNat - 48) = n
      rw [digitChar_toNat h]
      omega
    · rw [natStrCore, if_neg h, natVal_append_digit,
        ih (n / 10) (Nat.div_lt_self (by omega) (by omega)),
        digitChar_toNat (Nat.mod_lt n (by omega))]
      omega

theorem natStr_injective : Function.Injective natStr := by
  intro a b h
  have hd : natStrCore a = natStrCore b := congrArg String.data h
  have := congrArg natVal hd
  rwa [natVal_natStrCore, natVal_natStrCore] at this

/-- The candidate filename `"{base}_{counter}.{ext}"` tried by the collision
loop. -/
def candidateName (base ext : String) (counter : Nat) : String :=
  base ++ "_" ++ natStr counter ++ "." ++ ext

theorem candidateName_injective (base ext : String) :
    Function.Injective (candidateName base ext) := by
  intro a b h
  have hd := congrArg String.data h
  simp only [candidateName, String.data_append, List.append_assoc] at hd
  have h1 := List.append_cancel_left hd
  have h2 := List.append_cancel_left h1
  have h3 : natStr a = natStr b := congrArg String.mk (List.append_cancel_right h2)
  exact natStr_injective h3

/-- The `while True` collision loop of `_next_unique_filename`, with an
explicit iteration budget (the termination theorem shows `len(seen) + 1`
iterations always suffice). -/
def nextUniqueLoop (base ext : String) (seen : List String) :
    Nat → Nat → Option (String × List String)
  | _, 0 => none
  | counter, fuel + 1 =>
    let candidate := candidateName base ext counter
    if candidate ∈ seen then nextUniqueLoop base ext seen (counter + 1) fuel
    else some (candidate, candidate :: seen)

/-- `_next_unique_filename(base_name, ext, seen)` (backend.py lines 103-115,
app.py lines 62-74): try `"{base}.{ext}"` first, then `"{base}_2.{ext}"`,
`"{base}_3.{ext}"`, ... until a name not in `seen` is found; the chosen name
is added to `seen` (embedded as returning the grown list). -/
def next_unique_filename (base ext : String) (seen : List String) :
    Option (String × List String) :=
  let candidate := base ++ "." ++ ext
  if candidate ∈ seen then nextUniqueLoop base ext seen 2 (seen.length + 1)
  else some (candidate, candidate :: seen)

theorem nextUniqueLoop_ok (base ext : String) (seen : List String) :
    ∀ (fuel counter : Nat),
    (∃ k, k < fuel ∧ candidateName base ext (counter + k) ∉ seen) →
    ∃ c, counter ≤ c ∧ candidateName base ext c ∉ seen ∧
      nextUniqueLoop base ext seen counter fuel =
        some (candidateName base ext c, candidateName base ext c :: seen) := by
  intro fuel
  induction fuel with
  | zero =>
    rintro counter ⟨k, hk, _⟩
    omega
  | succ n ih =>
    rintro counter ⟨k, hk, hmem⟩
    rw [nextUniqueLoop]
    by_cases hc : candidateName base ext counter ∈ seen
    · rw [if_pos hc]
      have hk0 : k ≠ 0 := by
        rintro rfl
        exact hmem hc
      obtain ⟨c, h1, h2, h3⟩ := ih (counter + 1)
        ⟨k - 1, by omega, by
          have heq : counter + 1 + (k - 1) = counter + k := by omega
          rw [heq]
          exact hmem⟩
      exact ⟨c, by omega, h2, h3⟩
    · rw [if_neg hc]
      exact ⟨counter, le_refl _, hc, rfl⟩

theorem exists_fresh_candidate (base ext : String) (seen : List String) :
    ∃ k, k < seen.length + 1 ∧ candidateName base ext (2 + k) ∉ seen := by
  by_contra hcon
  push_neg at hcon
  have hinj : Function.Injective (fun k : Nat => candidateName base ext (2 + k)) := by
    intro a b h
    have := candidateName_injective base ext h
    omega
  have hcard : ((Finset.range (seen.length + 1)).image
      (fun k => candidateName base ext (2 + k))).card = seen.length + 1 := by
    rw [Finset.card_image_of_injective _ hinj, Finset.card_range]
  have hsub : (Finset.range (seen.length + 1)).image
      (fun k => candidateName base ext (2 + k)) ⊆ seen.toFinset := by
    intro s hs
    rcases Finset.mem_image.mp hs with ⟨k, hk, rfl⟩
    rw [List.mem_toFinset]
    exact hcon k (Finset.mem_range.mp hk)
  have h1 := Finset.card_le_card hsub
  have h2 := List.toFinset_card_le seen
  omega

/-- C10: every call of `_next_unique_filename` terminates and returns a
filename that is not in `seen` at the moment of the call, adding it to
`seen`; the name is either `"{base}.{ext}"` or a suffixed `"{base}_c.{ext}"`
with `c ≥ 2`. Consequently all names returned across one extraction request
(which threads one `seen` set through all calls) are pairwise distinct: each
later call's `seen` contains every earlier result, and its own result avoids
it. -/
theorem next_unique_filename_ok (base ext : String) (seen : List String) :
    ∃ name,
      next_unique_filename base ext seen = some (name, name :: seen) ∧
      name ∉ seen ∧
      (name = base ++ "." ++ ext ∨ ∃ c, 2 ≤ c ∧ name = candidateName base ext c) := by
  rw [next_unique_filename]
  by_cases hc : base ++ "." ++ ext ∈ seen
  · rw [if_pos hc]
    obtain ⟨c, h1, h2, h3⟩ := nextUniqueLoop_ok base ext seen (seen.length + 1) 2
      (exists_fresh_candidate base ext seen)
    exact ⟨candidateName base ext c, h3, h2, Or.inr ⟨c, h1, rfl⟩⟩
  · rw [if_neg hc]
    exact ⟨base ++ "." ++ ext, rfl, hc, Or.inl rfl⟩

/-! ### Shared-image (formula-key) extractor
(`_extract_cellimages_by_key`, backend.py lines 814-907, and the entry
assembly of `_extract_dispimg_entries`, lines 910-948).

XML is embedded by its iterator view: an `XElem` is one element as
`ElementTree` exposes it (tag, attributes in document order, text); a `CNode`
is a node of the cellimages part together with `subs`, the list that
`node.iter()` yields (the node itself first, then all descendants in document
order), and `xml`, the text `ET.tostring(node, encoding="unicode")` would
produce; the part's root is given by `nodes`, the list `root.iter()` yields.
The `.rels` companion part and the zip archive are embedded as association
lists (relationship id to target, part path to bytes). -/

structure XElem where
  tag : String
  attrs : List (String × String)
  text : Option String
deriving DecidableEq, Repr

structure CNode where
  tag : String
  subs : List XElem
  xml : String
deriving DecidableEq, Repr

/-- A resolved image record (the dicts stored in `images_by_key`). -/
structure CRecord where
  data : List Nat
  ext : String
  source : String
deriving DecidableEq, Repr

/-- `_xml_local_name(tag)` (backend.py lines 716-719): the part after the
last closing brace, or the whole tag if none. -/
def xmlLocalName (tag : String) : String :=
  String.mk (tag.toList.foldl (fun acc c => if c = '\x7d' then [] else acc ++ [c]) [])

/-- Python `str.lower()` (ASCII, which covers every tag involved). -/
def lowerStr (s : String) : String := String.mk (s.toList.map Char.toLower)

/-- `_normalize_mapping_key(key)` (backend.py lines 702-703):
`(key or "").strip().upper()`; a Python `None` argument is embedded as "". -/
def normalize_mapping_key (key : String) : String :=
  String.mk ((pyStrip key.toList).map Char.toUpper)

/-- The character class `[A-Z0-9_-]` of the DISPIMG key pattern. -/
def isKeyChar (c : Char) : Bool := c.isUpper || c.isDigit || c = '_' || c = '-'

/-- One left-to-right greedy scan for `re.findall(r"ID_[A-Z0-9_-]+", text)`.
The fuel argument only bounds the recursion and is initialized to the string
length, which every step strictly consumes at least one character of. -/
def findIdTokensAux : Nat → List Char → List (List Char)
  | 0, _ => []
  | _, [] => []
  | fuel + 1, c :: cs =>
    if c = 'I' then
      match cs with
      | 'D' :: '_' :: rest =>
        let run := rest.takeWhile isKeyChar
        if run = [] then findIdTokensAux fuel cs
        else ('I' :: 'D' :: '_' :: run) :: findIdTokensAux fuel (rest.drop run.length)
      | _ => findIdTokensAux fuel cs
    else findIdTokensAux fuel cs

def findIdTokens (s : List Char) : List (List Char) := findIdTokensAux s.length s

/-- Set-semantics insertion into a duplicate-free list (Python `set.add`). -/
def setInsertStr (l : List String) (x : String) : List String :=
  if x ∈ l then l else l ++ [x]

/-- Python `set.update` / union. -/
def setUnionStr (l : List String) (xs : List String) : List String :=
  xs.foldl setInsertStr l

/-- Python `set(...)` of a list, as a duplicate-free list. -/
def dedupKeepStr (l : List String) : List String := l.foldl setInsertStr []

/-- `_possible_mapping_keys(raw_value)` (backend.py lines 706-713): the
normalized text plus every embedded `ID_*` token, empties dropped. -/
def possible_mapping_keys (raw : String) : List String :=
  let text := normalize_mapping_key raw
  if text = "" then []
  else (setUnionStr [text] ((findIdTokens text.toList).map String.mk)).filter
    (fun s => decide (s ≠ ""))

/-- The `rel_ids` collection of `_extract_cellimages_by_key` (backend.py lines
849-854): every non-empty value of an attribute whose local name is "embed",
over the node and its descendants. -/
def nodeRelIds (n : CNode) : List String :=
  n.subs.foldl (fun acc sub =>
    acc ++ sub.attrs.filterMap (fun p =>
      if lowerStr (xmlLocalName p.1) = "embed" ∧ p.2 ≠ "" then some p.2 else none)) []

/-- The `matched_keys` computation of `_extract_cellimages_by_key` (backend.py
lines 871-890): intersect the possible keys of every attribute value and of
every stripped element text with the expected keys; if nothing matched, fall
back to searching the node's serialized XML for each expected key. -/
def nodeMatchedKeys (expected : List String) (n : CNode) : List String :=
  let base := n.subs.foldl (fun acc sub =>
    let acc1 := sub.attrs.foldl (fun a p =>
      setUnionStr a ((possible_mapping_keys p.2).filter (fun k => decide (k ∈ expected)))) acc
    let tv := String.mk (pyStrip (sub.text.getD "").toList)
    if tv ≠ "" then
      setUnionStr acc1 ((possible_mapping_keys tv).filter (fun k => decide (k ∈ expected)))
    else acc1) []
  if base = [] then
    let nodeXml := normalize_mapping_key n.xml
    if nodeXml ≠ "" then
      expected.filter (fun k => decide (k ≠ "") && hasInfix k.toList nodeXml.toList)
    else base
  else base

/-- `_detect_ext(data)` (backend.py lines 40-47): magic-byte sniffing with a
PNG default. -/
def detect_ext (data : List Nat) : String :=
  if [137, 80, 78, 71, 13, 10, 26, 10].isPrefixOf data then "png"
  else if [255, 216, 255].isPrefixOf data then "jpg"
  else if [71, 73, 70, 56].isPrefixOf data then "gif"
  else "png"

/-- Python `pathlib.Path(p).suffix`. -/
def pathSuffix (p : String) : String :=
  let name := (p.toList.reverse.takeWhile (fun c => decide (c ≠ '/'))).reverse
  match name.reverse.findIdx? (fun c => decide (c = '.')) with
  | none => ""
  | some j =>
    let i := name.length - 1 - j
    if 0 < i ∧ i < name.length - 1 then String.mk (name.drop i) else ""

/-- `_normalize_ext(ext, data)` (backend.py lines 50-56): lowercase, drop
dots, accept known extensions ("jpeg" as "jpg"), otherwise sniff. -/
def normalize_ext (ext : Option String) (data : List Nat) : String :=
  let e := String.mk (((ext.getD "").toList.map Char.toLower).filter
    (fun c => decide (c ≠ '.')))
  if e = "jpeg" then "jpg"
  else if e = "png" ∨ e = "jpg" ∨ e = "gif" ∨ e = "bmp" ∨ e = "tif" ∨
      e = "tiff" ∨ e = "webp" then e
  else detect_ext data

/-- Lookup in an association-list embedding of a Python dict `.get`. -/
def relsGet (m : List (String × String)) (k : String) : Option String :=
  (m.find? (fun p => decide (p.1 = k))).map (fun p => p.2)

def archiveRead (archive : List (String × List Nat)) (p : String) : Option (List Nat) :=
  (archive.find? (fun q => decide (q.1 = p))).map (fun q => q.2)

/-- The media-resolution loop over a node's `rel_ids` (backend.py lines
856-869): the first relationship id whose target resolves to an existing,
non-empty part wins; a falsy (empty) resolved path is skipped. -/
def resolveNodeMedia (archive : List (String × List Nat))
    (relsMap : List (String × String)) (cellimagesPath : String) :
    List String → Option (String × List Nat × String)
  | [] => none
  | relId :: rest =>
    match resolve_zip_path cellimagesPath (relsGet relsMap relId) with
    | none => resolveNodeMedia archive relsMap cellimagesPath rest
    | some mediaPath =>
      if mediaPath = "" then resolveNodeMedia archive relsMap cellimagesPath rest
      else
        match archiveRead archive mediaPath with
        | none => resolveNodeMedia archive relsMap cellimagesPath rest
        | some data =>
          if data = [] then resolveNodeMedia archive relsMap cellimagesPath rest
          else some (mediaPath, data, normalize_ext (some (pathSuffix mediaPath)) data)

/-- Python dict insertion (overwrite in place on an existing key, append
otherwise), for `images_by_key`. -/
def recInsert (m : List (String × CRecord)) (k : String) (v : CRecord) :
    List (String × CRecord) :=
  if (m.find? (fun p => decide (p.1 = k))).isSome then
    m.map (fun p => if p.1 = k then (k, v) else p)
  else m ++ [(k, v)]

def recGet (m : List (String × CRecord)) (k : String) : Option CRecord :=
  (m.find? (fun p => decide (p.1 = k))).map (fun p => p.2)

/-- Python `dict.setdefault`: keep an existing binding, append otherwise. -/
def recSetdefault (m : List (String × CRecord)) (k : String) (v : CRecord) :
    List (String × CRecord) :=
  if (m.find? (fun p => decide (p.1 = k))).isSome then m else m ++ [(k, v)]

/-- The normalized expected-key set `expected_norm_keys` (backend.py lines
821-823). -/
def expectedNormOf (expectedKeys : List String) : List String :=
  dedupKeepStr ((expectedKeys.map normalize_mapping_key).filter
    (fun s => decide (s ≠ "")))

/-- The `candidate_nodes` selection (backend.py lines 828-846): `pic` nodes
first, else nodes carrying an embed attribute, else generically named image
nodes. -/
def candidateNodes (nodes : List CNode) : List CNode :=
  let picNodes := nodes.filter (fun n => decide (lowerStr (xmlLocalName n.tag) = "pic"))
  let embedNodes := nodes.filter (fun n => decide (nodeRelIds n ≠ []))
  if picNodes ≠ [] then picNodes
  else if embedNodes ≠ [] then embedNodes
  else nodes.filter (fun n => decide (lowerStr (xmlLocalName n.tag) ∈
    (["cellimage", "image", "onecellanchor", "twocellanchor"] : List String)))

/-- The record dict built for one resolved media triple (backend.py lines
899-903). -/
def mkCellimageRecord (md : String × List Nat × String) : CRecord :=
  ⟨md.2.1, (if md.2.2 = "" then "png" else md.2.2), "cellimages:" ++ md.1⟩

/-- One step of the candidate-node loop of `_extract_cellimages_by_key`
(backend.py lines 848-905), acting on the pair
`(images_by_key, record_cache)`. -/
def cellimagesStep (archive : List (String × List Nat))
    (relsMap : List (String × String)) (cellimagesPath : String)
    (expectedNorm : List String)
    (st : List (String × CRecord) × List (String × CRecord)) (node : CNode) :
    List (String × CRecord) × List (String × CRecord) :=
  match resolveNodeMedia archive relsMap cellimagesPath (nodeRelIds node) with
  | none => st
  | some md =>
    match nodeMatchedKeys expectedNorm node with
    | [keyNorm] =>
      match recGet st.2 md.1 with
      | some r => (recInsert st.1 keyNorm r, st.2)
      | none =>
        let record := mkCellimageRecord md
        (recInsert st.1 keyNorm record, st.2 ++ [(md.1, record)])
    | _ => st

/-- `_extract_cellimages_by_key(archive, cellimages_path, expected_keys)`
(backend.py lines 814-907). A node is skipped when no media resolves for it
or when its matched-key set does not have exactly one element
("Accuracy-first mode: skip ambiguous or key-less nodes"); otherwise its
record is stored under the single matched key, overwriting any record a
previous node stored for that key. -/
def extract_cellimages_by_key (archive : List (String × List Nat))
    (relsMap : List (String × String)) (nodes : List CNode)
    (cellimagesPath : String) (expectedKeys : List String) :
    List (String × CRecord) :=
  ((candidateNodes nodes).foldl
    (cellimagesStep archive relsMap cellimagesPath (expectedNormOf expectedKeys))
    (([], []) : List (String × CRecord) × List (String × CRecord))).1

/-- One cellimages part as `_extract_dispimg_entries` sees it: its path, its
already-parsed `.rels` map and its root's iterator view. -/
structure CellimagesPart where
  path : String
  rels : List (String × String)
  nodes : List CNode
deriving DecidableEq, Repr

/-- The cross-part merge of `_extract_dispimg_entries` (backend.py lines
924-930): `setdefault` keeps the first-resolved record per key. -/
def mergeImagesByKey (parts : List (List (String × CRecord))) :
    List (String × CRecord) :=
  parts.foldl (fun acc part =>
    if part ≠ [] then part.foldl (fun a p => recSetdefault a p.1 p.2) acc else acc) []

def rowKeyGet (m : List (Nat × String)) (r : Nat) : Option String :=
  (m.find? (fun p => decide (p.1 = r))).map (fun p => p.2)

/-- The entry-assembly loop of `_extract_dispimg_entries` (backend.py lines
934-947): for each formula row in ascending order, look its normalized key up
in `images_by_key`; unresolved keys contribute nothing. -/
def assembleDispimgEntries (rowKeyMap : List (Nat × String))
    (imagesByKey : List (String × CRecord)) (imageCol : Nat) : List Entry :=
  (sortNat (rowKeyMap.map (fun p => p.1)).dedup).filterMap (fun r =>
    match rowKeyGet rowKeyMap r with
    | none => none
    | some key =>
      let normKey := normalize_mapping_key key
      match recGet imagesByKey normKey with
      | none => none
      | some item =>
        some ⟨some r, some imageCol, item.ext, item.data,
          "dispimg:" ++ (if normKey = "" then natStr r else normKey)⟩)

/-- `_extract_dispimg_entries(file_bytes, sheet_name, image_col, start_row)`
(backend.py lines 910-948), with the sheet scan that produces `row_key_map`
and the part discovery abstracted into inputs: empty row map, no cellimages
part, or no resolved image yields no entries; otherwise the rows are
assembled from the merged per-part key resolutions. -/
def extract_dispimg_entries (archive : List (String × List Nat))
    (parts : List CellimagesPart) (rowKeyMap : List (Nat × String))
    (imageCol : Nat) : List Entry :=
  if rowKeyMap = [] then []
  else if parts = [] then []
  else
    let expectedKeys := (rowKeyMap.map (fun p => p.2)).filterMap
      (fun v => if v = "" then none else some (normalize_mapping_key v))
    let imagesByKey := mergeImagesByKey (parts.map (fun p =>
      extract_cellimages_by_key archive p.rels p.nodes p.path expectedKeys))
    if imagesByKey = [] then []
    else assembleDispimgEntries rowKeyMap imagesByKey imageCol

/-! ### C7 lemmas: the outcome of duplicate and absent key matches -/

/-- What one candidate node contributes for the key k: its record when its
media resolves and its matched-key set is exactly the singleton containing k,
nothing otherwise. -/
def nodeResolution (archive : List (String × List Nat))
    (rels : List (String × String)) (path : String) (expectedNorm : List String)
    (k : String) (n : CNode) : Option CRecord :=
  match resolveNodeMedia archive rels path (nodeRelIds n) with
  | none => none
  | some md =>
    if nodeMatchedKeys expectedNorm n = [k] then some (mkCellimageRecord md) else none

theorem resolveNodeMedia_spec (archive : List (String × List Nat))
    (rels : List (String × String)) (path : String) :
    ∀ (relIds : List String) (md : String × List Nat × String),
    resolveNodeMedia archive rels path relIds = some md →
      archiveRead archive md.1 = some md.2.1 ∧
      md.2.2 = normalize_ext (some (pathSuffix md.1)) md.2.1 := by
  intro relIds
  induction relIds with
  | nil =>
    intro md h
    cases h
  | cons r rs ih =>
    intro md h
    rw [resolveNodeMedia] at h
    split at h
    · exact ih md h
    · split at h
      · exact ih md h
      · split at h
        · exact ih md h
        · split at h
          · exact ih md h
          · cases h
            next mp hmp data hread hdata =>
            exact ⟨hread, rfl⟩

theorem resolveNodeMedia_det (archive : List (String × List Nat))
    (rels : List (String × String)) (path : String) {ids ids' : List String}
    {md md' : String × List Nat × String}
    (h : resolveNodeMedia archive rels path ids = some md)
    (h' : resolveNodeMedia archive rels path ids' = some md')
    (hp : md.1 = md'.1) : md = md' := by
  have s1 := resolveNodeMedia_spec archive rels path ids md h
  have s2 := resolveNodeMedia_spec archive rels path ids' md' h'
  have hdata : md.2.1 = md'.2.1 := by
    have h1 := s1.1
    rw [hp, s2.1] at h1
    exact (Option.some.injEq _ _ ▸ h1).symm ▸ rfl
  have hext : md.2.2 = md'.2.2 := by
    rw [s1.2, s2.2, hp, hdata]
  obtain ⟨p, d, e⟩ := md
  obtain ⟨p', d', e'⟩ := md'
  simp only at hp hdata hext
  rw [hp, hdata, hext]

theorem find?_recInsert_map (k : String) (v : CRecord) :
    ∀ m : List (String × CRecord),
    (m.map (fun p => if p.1 = k then (k, v) else p)).find?
        (fun p => decide (p.1 = k)) =
      if (m.find? (fun p => decide (p.1 = k))).isSome then some (k, v) else none := by
  intro m
  induction m with
  | nil => rfl
  | cons q rest ih =>
    by_cases hq : q.1 = k
    · rw [List.map_cons, if_pos hq,
        List.find?_cons_of_pos _ (by simp),
        List.find?_cons_of_pos _ (by simp [hq])]
      simp
    · rw [List.map_cons, if_neg hq,
        List.find?_cons_of_neg _ (by simp [hq]),
        List.find?_cons_of_neg _ (by simp [hq])]
      exact ih

theorem find?_recInsert_map_ne (k k' : String) (v : CRecord) (h : k' ≠ k) :
    ∀ m : List (String × CRecord),
    (m.map (fun p => if p.1 = k then (k, v) else p)).find?
        (fun p => decide (p.1 = k')) =
      m.find? (fun p => decide (p.1 = k')) := by
  intro m
  induction m with
  | nil => rfl
  | cons q rest ih =>
    by_cases hq : q.1 = k
    · rw [List.map_cons, if_pos hq,
        List.find?_cons_of_neg _ (by simp [Ne.symm h]),
        List.find?_cons_of_neg _ (by simp [hq, Ne.symm h])]
      exact ih
    · rw [List.map_cons, if_neg hq]
      by_cases hq' : q.1 = k'
      · rw [List.find?_cons_of_pos _ (by simp [hq']),
          List.find?_cons_of_pos _ (by simp [hq'])]
      · rw [List.find?_cons_of_neg _ (by simp [hq']),
          List.find?_cons_of_neg _ (by simp [hq'])]
        exact ih

theorem recGet_recInsert_self (m : List (String × CRecord)) (k : String)
    (v : CRecord) : recGet (recInsert m k v) k = some v := by
  rw [recInsert]
  by_cases h : (m.find? (fun p => decide (p.1 = k))).isSome
  · rw [if_pos h, recGet, find?_recInsert_map, if_pos h]
    rfl
  · rw [if_neg h, recGet, List.find?_append]
    cases hm : m.find? (fun p => decide (p.1 = k)) with
    | some p => rw [hm] at h; simp at h
    | none => simp [Option.or, List.find?]

theorem recGet_recInsert_ne (m : List (String × CRecord)) (k k' : String)
    (v : CRecord) (h : k' ≠ k) : recGet (recInsert m k v) k' = recGet m k' := by
  rw [recInsert]
  by_cases hf : (m.find? (fun p => decide (p.1 = k))).isSome
  · rw [if_pos hf, recGet, find?_recInsert_map_ne k k' v h, recGet]
  · rw [if_neg hf, recGet, List.find?_append, recGet]
    have h1 : (List.find? (fun p => decide (p.1 = k')) [(k, v)]) = none := by
      rw [List.find?_cons_of_neg _ (by simp [Ne.symm h])]
      rfl
    rw [h1, Option.or_none]

theorem getLast?_cons_or {α : Type} (x : α) (l : List α) :
    (x :: l).getLast? = l.getLast?.or (some x) := by
  induction l generalizing x with
  | nil => rfl
  | cons y ys ih =>
    rw [List.getLast?_cons_cons, ih y]
    cases h : ys.getLast? with
    | none => rfl
    | some z => rfl

/-- Characterization of the candidate fold: the record stored for key k is
the one contributed by the LAST candidate node resolving k, with the record
cache never changing what is stored (records are determined by their media
path). -/
theorem cellimagesFold_char (archive : List (String × List Nat))
    (rels : List (String × String)) (path : String) (expectedNorm : List String)
    (k : String) :
    ∀ (cs : List CNode) (st : List (String × CRecord) × List (String × CRecord)),
    (∀ pr ∈ st.2, ∃ ids md, resolveNodeMedia archive rels path ids = some md ∧
      md.1 = pr.1 ∧ pr.2 = mkCellimageRecord md) →
    recGet ((cs.foldl (cellimagesStep archive rels path expectedNorm) st)).1 k =
      ((cs.filterMap (nodeResolution archive rels path expectedNorm k)).getLast?).or
        (recGet st.1 k) := by
  intro cs
  induction cs with
  | nil =>
    intro st _
    simp [Option.or]
  | cons c cs ih =>
    intro st hcache
    rw [List.foldl_cons, List.filterMap_cons]
    cases hmed : resolveNodeMedia archive rels path (nodeRelIds c) with
    | none =>
      have hstep : cellimagesStep archive rels path expectedNorm st c = st := by
        simp [cellimagesStep, hmed]
      have hnr : nodeResolution archive rels path expectedNorm k c = none := by
        simp [nodeResolution, hmed]
      rw [hstep, hnr, ih st hcache]
    | some md =>
      cases hmk : nodeMatchedKeys expectedNorm c with
      | nil =>
        have hstep : cellimagesStep archive rels path expectedNorm st c = st := by
          simp [cellimagesStep, hmed, hmk]
        have hnr : nodeResolution archive rels path expectedNorm k c = none := by
          simp [nodeResolution, hmed, hmk]
        rw [hstep, hnr, ih st hcache]
      | cons key rest =>
        cases rest with
        | cons k2 rest2 =>
          have hstep : cellimagesStep archive rels path expectedNorm st c = st := by
            simp [cellimagesStep, hmed, hmk]
          have hnr : nodeResolution archive rels path expectedNorm k c = none := by
            simp [nodeResolution, hmed, hmk]
          rw [hstep, hnr, ih st hcache]
        | nil =>
          obtain ⟨record, cache', hrec, hstep, hcache'⟩ :
              ∃ record cache', record = mkCellimageRecord md ∧
              cellimagesStep archive rels path expectedNorm st c =
                (recInsert st.1 key record, cache') ∧
              (∀ pr ∈ cache',
                ∃ ids md', resolveNodeMedia archive rels path ids = some md' ∧
                  md'.1 = pr.1 ∧ pr.2 = mkCellimageRecord md') := by
            cases hhit : recGet st.2 md.1 with
            | some r =>
              have hr : r = mkCellimageRecord md := by
                rw [recGet] at hhit
                cases hfind : st.2.find? (fun p => decide (p.1 = md.1)) with
                | none => rw [hfind] at hhit; cases hhit
                | some pr =>
                  rw [hfind] at hhit
                  simp only [Option.map_some'] at hhit
                  have hpr : pr ∈ st.2 := List.mem_of_find?_eq_some hfind
                  have hkey : pr.1 = md.1 := by
                    have := List.find?_some hfind
                    exact of_decide_eq_true this
                  obtain ⟨ids', md', hres', hfst', hrec'⟩ := hcache pr hpr
                  have hmd : md' = md := resolveNodeMedia_det archive rels path
                    hres' hmed (by rw [hfst', hkey])
                  have hr2 : pr.2 = r := by injection hhit
                  rw [← hr2, hrec', hmd]
              refine ⟨r, st.2, hr, ?_, hcache⟩
              simp [cellimagesStep, hmed, hmk, hhit]
            | none =>
              refine ⟨mkCellimageRecord md, st.2 ++ [(md.1, mkCellimageRecord md)],
                rfl, ?_, ?_⟩
              · simp [cellimagesStep, hmed, hmk, hhit]
              · intro pr hpr
                rcases List.mem_append.mp hpr with hpr | hpr
                · exact hcache pr hpr
                · rcases List.mem_singleton.mp hpr with rfl
                  exact ⟨nodeRelIds c, md, hmed, rfl, rfl⟩
          rw [hstep]
          rw [ih (recInsert st.1 key record, cache') hcache']
          by_cases hkk : key = k
          · subst hkk
            have hnr : nodeResolution archive rels path expectedNorm key c =
                some (mkCellimageRecord md) := by
              simp [nodeResolution, hmed, hmk]
            rw [hnr, getLast?_cons_or, Option.or_assoc, recGet_recInsert_self]
            rw [hrec]
            cases h : (List.filterMap (nodeResolution archive rels path expectedNorm key) cs).getLast? with
            | none => rfl
            | some z => rfl
          · have hnr : nodeResolution archive rels path expectedNorm k c = none := by
              simp [nodeResolution, hmed, hmk, hkk]
            rw [hnr, recGet_recInsert_ne st.1 key k record (fun hh => hkk hh.symm)]

/-- Every key stored by `_extract_cellimages_by_key` is the single matched
key of the LAST candidate node (in part document order) that resolves media
and matches it uniquely; in particular a key matched by no candidate node is
absent (unresolved), while a key uniquely matched by several nodes is
resolved to the last such node's media rather than excluded. -/
theorem extract_cellimages_by_key_char (archive : List (String × List Nat))
    (rels : List (String × String)) (nodes : List CNode) (path : String)
    (expectedKeys : List String) (k : String) :
    recGet (extract_cellimages_by_key archive rels nodes path expectedKeys) k =
      ((candidateNodes nodes).filterMap
        (nodeResolution archive rels path (expectedNormOf expectedKeys) k)).getLast? := by
  rw [extract_cellimages_by_key,
    cellimagesFold_char archive rels path (expectedNormOf expectedKeys) k
      (candidateNodes nodes) ([], []) (by intro pr hpr; cases hpr)]
  cases h : ((candidateNodes nodes).filterMap
      (nodeResolution archive rels path (expectedNormOf expectedKeys) k)).getLast? with
  | none => rfl
  | some z => rfl

/-- C7 fixture: relationships of the cellimages part, pointing at two
distinct media parts. -/
def dispimgCexRels : List (String × String) :=
  [("rId1", "media/image1.png"), ("rId2", "media/image2.png")]

/-- C7 fixture: the archive's media parts (PNG-signature bytes, distinct). -/
def dispimgCexArchive : List (String × List Nat) :=
  [("xl/media/image1.png", [137, 80, 78, 71, 13, 10, 26, 10]),
   ("xl/media/image2.png", [137, 80, 78, 71, 13, 10, 26, 10, 1])]

/-- C7 fixture: first `pic` node, whose `nvPicPr` name attribute references
"ID_7" and whose `blip` embeds rId1. -/
def dispimgCexPic1 : CNode :=
  ⟨"pic", [⟨"pic", [], none⟩, ⟨"nvPicPr", [("name", "ID_7")], none⟩,
    ⟨"blip", [("embed", "rId1")], none⟩], "pic1xml"⟩

/-- C7 fixture: second `pic` node, also referencing "ID_7", embedding rId2. -/
def dispimgCexPic2 : CNode :=
  ⟨"pic", [⟨"pic", [], none⟩, ⟨"nvPicPr", [("name", "ID_7")], none⟩,
    ⟨"blip", [("embed", "rId2")], none⟩], "pic2xml"⟩

/-- C7 fixture: the iterator view of the cellimages root. -/
def dispimgCexNodes : List CNode :=
  [⟨"cellImages", [⟨"cellImages", [], none⟩], "rootxml"⟩,
   dispimgCexPic1, dispimgCexPic2]

/-- C7 counterexample: the formula key "ID_7" sits at row 10 and BOTH
candidate pic nodes of the shared-images part uniquely reference it with
resolvable, distinct media. The claim says such a key is unresolved and
row 10 excluded; the code instead resolves "ID_7" to the SECOND (last)
node's media and emits row 10 in the strategy's output. -/
theorem dispimg_ambiguous_key_cex :
    nodeMatchedKeys (expectedNormOf ["ID_7"]) dispimgCexPic1 = ["ID_7"] ∧
    nodeMatchedKeys (expectedNormOf ["ID_7"]) dispimgCexPic2 = ["ID_7"] ∧
    candidateNodes dispimgCexNodes = [dispimgCexPic1, dispimgCexPic2] ∧
    extract_cellimages_by_key dispimgCexArchive dispimgCexRels dispimgCexNodes
        "xl/cellimages.xml" ["ID_7"] =
      [("ID_7", ⟨[137, 80, 78, 71, 13, 10, 26, 10, 1], "png",
        "cellimages:xl/media/image2.png"⟩)] ∧
    extract_dispimg_entries dispimgCexArchive
        [⟨"xl/cellimages.xml", dispimgCexRels, dispimgCexNodes⟩]
        [(10, "ID_7")] 1 =
      [⟨some 10, some 1, "png", [137, 80, 78, 71, 13, 10, 26, 10, 1],
        "dispimg:ID_7"⟩] := by
  exact ⟨rfl, rfl, rfl, rfl, rfl⟩

/-- C7 amended: the exclusion rule is per node, not per key. The record
stored for a key is contributed by the LAST candidate node that resolves
media and whose matched-key set is exactly that singleton key; hence a key
matched by zero candidate nodes is unresolved (absent from `images_by_key`,
and any formula row carrying an unresolved key is excluded from the
strategy's entries), while a key uniquely matched by several candidate nodes
is resolved to the last such node's media rather than excluded. -/
theorem dispimg_key_resolution_amended
    (archive : List (String × List Nat)) (rels : List (String × String))
    (nodes : List CNode) (path : String) (expectedKeys : List String) (k : String)
    (rowKeyMap : List (Nat × String)) (imagesByKey : List (String × CRecord))
    (imageCol : Nat) (r : Nat) (key : String)
    (hk : rowKeyGet rowKeyMap r = some key)
    (hres : recGet imagesByKey (normalize_mapping_key key) = none) :
    recGet (extract_cellimages_by_key archive rels nodes path expectedKeys) k =
      ((candidateNodes nodes).filterMap
        (nodeResolution archive rels path (expectedNormOf expectedKeys) k)).getLast? ∧
    ∀ e ∈ assembleDispimgEntries rowKeyMap imagesByKey imageCol, e.row ≠ some r := by
  refine ⟨extract_cellimages_by_key_char archive rels nodes path expectedKeys k, ?_⟩
  intro e he hrow
  rw [assembleDispimgEntries] at he
  rcases List.mem_filterMap.mp he with ⟨r', hr', hf⟩
  split at hf
  · cases hf
  · next key' hkey' =>
    dsimp only at hf
    split at hf
    · cases hf
    · next item hitem =>
      cases hf
      have hrr : r' = r := by injection hrow
      subst hrr
      rw [hk] at hkey'
      have hkk : key' = key := by
        injection hkey' with h2
        exact h2.symm
      subst hkk
      rw [hres] at hitem
      cases hitem

/-- Witness for C7's amended theorem at the two-node fixture (for the
resolution characterization) and an unresolvable key (for the exclusion
hypotheses). -/
theorem dispimg_key_resolution_amended_witness :
    recGet (extract_cellimages_by_key dispimgCexArchive dispimgCexRels
        dispimgCexNodes "xl/cellimages.xml" ["ID_7"]) "ID_7" =
      ((candidateNodes dispimgCexNodes).filterMap
        (nodeResolution dispimgCexArchive dispimgCexRels "xl/cellimages.xml"
          (expectedNormOf ["ID_7"]) "ID_7")).getLast? :=
  (dispimg_key_resolution_amended dispimgCexArchive dispimgCexRels dispimgCexNodes
    "xl/cellimages.xml" ["ID_7"] "ID_7" [(10, "ID_9")] [] 1 10 "ID_9" rfl rfl).1

end ExcelImage
